import Mathlib

/-!
Shallow embedding of a small interactive shell: the command-line parser
(src/parser.c) and the file-descriptor and exit-status bookkeeping of the
pipeline executor (src/shell.c). Definitions are translated from the C
source; the theorems at the end of the file settle the specification claims.
-/

namespace ShellSpec

/-- Constant MAX_LINE_LEN from include/shell.h line 15. -/
def MAX_LINE_LEN : Nat := 4096

/-- Constant MAX_TOKENS from include/shell.h line 20. -/
def MAX_TOKENS : Nat := 256

/-- Constant MAX_PIPES from include/shell.h line 25. -/
def MAX_PIPES : Nat := 64

/-- C `isspace` in the default locale: space, tab, newline, vertical tab,
form feed, carriage return. -/
def isSpaceC (c : Char) : Bool :=
  c = ' ' || c = '\t' || c = '\n' || c = Char.ofNat 11 || c = Char.ofNat 12 || c = '\r'

/-- Inner loop of `tokenize` (parser.c lines 36-49): scan one lexeme starting
at a non-space position, tracking the quote state (`in_quotes`, `quote_char`).
Returns the scanned characters and the unconsumed remainder. The quote
characters are part of the returned lexeme, exactly as the C loop leaves them
in the buffer: it only moves the cursor, it never deletes characters. -/
def scanToken : List Char → Bool → Char → List Char × List Char
  | [], _, _ => ([], [])
  | c :: rest, inq, qc =>
    if inq = false ∧ (c = '"' ∨ c = '\'') then
      (c :: (scanToken rest true c).1, (scanToken rest true c).2)
    else if inq = true ∧ c = qc then
      (c :: (scanToken rest false qc).1, (scanToken rest false qc).2)
    else if inq = false ∧ isSpaceC c = true then
      ([], c :: rest)
    else
      (c :: (scanToken rest inq qc).1, (scanToken rest inq qc).2)

/-- Outer loop of `tokenize` (parser.c lines 25-59), its bound
`count < max_tokens - 1` represented by the `Nat` budget: skip leading
whitespace, stop at the end of the input, scan one lexeme, step over the
delimiter character that the C code overwrites with NUL (lines 53-55),
repeat. -/
def tokenizeAux : Nat → List Char → List (List Char)
  | 0, _ => []
  | n + 1, cs =>
    if (cs.dropWhile isSpaceC) = [] then []
    else
      (scanToken (cs.dropWhile isSpaceC) false (Char.ofNat 0)).1 ::
        tokenizeAux n ((scanToken (cs.dropWhile isSpaceC) false (Char.ofNat 0)).2.tail)

/-- The same scan with no bound on the number of lexemes: what `tokenize`
would produce if `MAX_TOKENS` were unlimited. A budget equal to the number
of characters always suffices, because every lexeme consumes at least one
character (proved below as `tokenizeAux_eq_take`). -/
def tokenizeAll (cs : List Char) : List (List Char) :=
  tokenizeAux cs.length cs

/-- `tokenize` (parser.c lines 18-64) on a line: the bounded scan of the
line's characters, each lexeme repackaged as a string (`strdup`). Allocation
failure (the -1 return) is not modelled. -/
def tokenize (line : String) (max_tokens : Nat) : List String :=
  (tokenizeAux (max_tokens - 1) line.toList).map (fun w => String.mk w)

/-- `tokenize` as `parse_command` invokes it (parser.c line 176), with
`max_tokens = MAX_TOKENS`. -/
def tokenizeLine (line : String) : List String :=
  tokenize line MAX_TOKENS

/-- One step of splitting a line into the maximal runs of non-space
characters, with a fuel bound (one character of fuel per word suffices). -/
def wordsOfFuel : Nat → List Char → List (List Char)
  | 0, _ => []
  | n + 1, cs =>
    if (cs.dropWhile isSpaceC) = [] then []
    else
      (cs.dropWhile isSpaceC).takeWhile (fun c => !isSpaceC c) ::
        wordsOfFuel n ((cs.dropWhile isSpaceC).dropWhile (fun c => !isSpaceC c))

/-- The maximal runs of non-space characters of a line: the reference
splitter used to state what the scanner does on quote-free input. -/
def wordsOf (cs : List Char) : List (List Char) :=
  wordsOfFuel cs.length cs

/-- No quote character occurs in the given characters. -/
def noQuote (cs : List Char) : Prop := ∀ c ∈ cs, c ≠ '"' ∧ c ≠ '\''

instance noQuoteDecidable (cs : List Char) : Decidable (noQuote cs) :=
  inferInstanceAs (Decidable (∀ c ∈ cs, c ≠ '"' ∧ c ≠ '\''))

/-- command_t from include/shell.h lines 30-36. `argv = none` models a NULL
argument vector; `some l` models an allocated vector holding the strings of
`l` followed by the NULL sentinel. Likewise for the two file fields. -/
structure command_t where
  argv : Option (List String)
  input_file : Option String
  output_file : Option String
  append_output : Bool
  background : Bool
deriving DecidableEq, Repr

/-- A `command_t` as `calloc` (parser.c line 96) and the field initialization
at parser.c lines 105-109 leave it: everything null / false. -/
def command_t.init : command_t := ⟨none, none, none, false, false⟩

/-- pipeline_t from include/shell.h lines 41-44; `commands = none` models a
NULL commands pointer. -/
structure pipeline_t where
  commands : Option (List command_t)
  num_commands : Nat
deriving DecidableEq, Repr

/-- `free_pipeline` (parser.c lines 189-209) as a transformation of the
structure: the held storage is released and both fields are zeroed
(parser.c lines 206-208). -/
def free_pipeline (_p : pipeline_t) : pipeline_t := ⟨none, 0⟩

/-- The number of `free` calls on non-null pointers that `free_pipeline`
performs for one command (parser.c lines 195-203): each argv string, the
argv vector itself, and each present redirection path. -/
def command_t.freeCalls (c : command_t) : Nat :=
  (match c.argv with
   | none => 0
   | some l => l.length + 1) +
  (match c.input_file with
   | none => 0
   | some _ => 1) +
  (match c.output_file with
   | none => 0
   | some _ => 1)

/-- The total number of `free` calls on non-null pointers that
`free_pipeline` performs (parser.c lines 192-206): the per-command releases
plus the commands array itself when it is non-null. `free(NULL)` at
parser.c line 206 is a no-op and is not counted. -/
def freeCalls (p : pipeline_t) : Nat :=
  match p.commands with
  | none => 0
  | some cs => (cs.map command_t.freeCalls).sum + 1

/-- The three redirection operator lexemes of the builder
(parser.c lines 121, 125, 130). -/
def redirOps : List String := ["<", ">", ">>"]

/-- No redirection operator lexeme is immediately followed by another
redirection operator lexeme. Under this condition the lexeme consumed as a
redirection target (parser.c lines 123-133) is never itself a redirection
operator, so "the last lexeme is a redirection operator" coincides with "a
redirection operator is in operator position with no following word". -/
def redirOk : List String → Prop
  | [] => True
  | [_] => True
  | a :: b :: rest => (a ∈ redirOps → b ∉ redirOps) ∧ redirOk (b :: rest)

instance redirOkDecidable : (ts : List String) → Decidable (redirOk ts)
  | [] => Decidable.isTrue trivial
  | [_] => Decidable.isTrue trivial
  | a :: b :: rest =>
    have : Decidable (redirOk (b :: rest)) := redirOkDecidable (b :: rest)
    inferInstanceAs (Decidable (_ ∧ _))

/-- The inner token walk of `parse_tokens` (parser.c lines 117-146): consume
lexemes for one command until a pipe, `&`, the end of the lexemes, or an
error. `ws` accumulates the words destined for `argv` (the C code keeps them
in a scratch vector whose length is `argc`); the vector is attached as the
command's argv exactly at the loop exits that reach parser.c lines 148-149.
Returns the finished command and the unconsumed lexemes, or `none` for the
`goto error` paths (redirection without a following lexeme, argv overflow). -/
def parseCmdLoop (isLast : Bool) : List String → command_t → List String → Option (command_t × List String)
  | [], cmd, ws => some ({ cmd with argv := some ws }, [])
  | t :: rest, cmd, ws =>
    if t = "|" then some ({ cmd with argv := some ws }, rest)
    else if t = "<" then
      match rest with
      | [] => none
      | f :: rest2 => parseCmdLoop isLast rest2 { cmd with input_file := some f } ws
    else if t = ">" then
      match rest with
      | [] => none
      | f :: rest2 =>
        parseCmdLoop isLast rest2 { cmd with output_file := some f, append_output := false } ws
    else if t = ">>" then
      match rest with
      | [] => none
      | f :: rest2 =>
        parseCmdLoop isLast rest2 { cmd with output_file := some f, append_output := true } ws
    else if t = "&" then
      let bg : Bool := if isLast then true else cmd.background
      some ({ cmd with background := bg, argv := some ws }, rest)
    else
      if MAX_TOKENS - 1 ≤ ws.length then none
      else parseCmdLoop isLast rest cmd (ws ++ [t])

/-- The outer command walk of `parse_tokens` (parser.c lines 100-151):
`while (cmd_idx < num_commands && tokens[token_idx])`, with the number of
remaining iterations as structural fuel. Commands the walk never reaches
stay as `calloc` left them (`command_t.init`), matching the zero-filled
array of parser.c line 96. -/
def parseLoopFuel : Nat → Nat → Nat → List String → Option (List command_t)
  | 0, num, idx, _ => some (List.replicate (num - idx) command_t.init)
  | fuel + 1, num, idx, ts =>
    if idx < num ∧ ts ≠ [] then
      match parseCmdLoop (decide (idx = num - 1)) ts command_t.init [] with
      | none => none
      | some (cmd, rest) => (parseLoopFuel fuel num (idx + 1) rest).map (fun l => cmd :: l)
    else some (List.replicate (num - idx) command_t.init)

/-- The outer walk with the fuel instantiated: `num - idx` iterations can
still run, which is exact because `cmd_idx` increases by one per iteration
and the loop stops at `cmd_idx = num_commands`. -/
def parseLoop (num : Nat) (idx : Nat) (ts : List String) : Option (List command_t) :=
  parseLoopFuel (num - idx) num idx ts

/-- The number of `"|"` lexemes (parser.c lines 87-92). -/
def countPipes (ts : List String) : Nat :=
  (ts.filter (fun t => decide (t = "|"))).length

/-- `parse_tokens` (parser.c lines 83-158), with the caller's pipeline
structure passed and returned explicitly. The `goto error` path runs
`free_pipeline` on the structure being built (parser.c lines 155-157);
the two early `return -1`s (no lexemes, too many commands) leave the
caller's structure untouched. Allocation failure is not modelled. -/
def parse_tokens (ts : List String) (p : pipeline_t) : Int × pipeline_t :=
  if ts = [] then (-1, p)
  else
    if countPipes ts + 1 > MAX_PIPES then (-1, p)
    else
      match parseLoop (countPipes ts + 1) 0 ts with
      | none => (-1, free_pipeline ⟨some [], countPipes ts + 1⟩)
      | some cmds => (0, ⟨some cmds, countPipes ts + 1⟩)

/-- The blank-line / comment test of `parse_command` (parser.c lines
168-170): skip whitespace; empty remainder or a leading `#`. -/
def isBlankOrComment (line : String) : Bool :=
  match line.toList.dropWhile (fun c => isSpaceC c) with
  | [] => true
  | c :: _ => decide (c = '#')

/-- `parse_command` (parser.c lines 160-187): initialize the pipeline to
null/zero, return 0 for blank and comment lines, otherwise tokenize and
build. Returns the C result code together with the out-parameter pipeline. -/
def parse_command (line : String) : Int × pipeline_t :=
  if isBlankOrComment line then (0, ⟨none, 0⟩)
  else parse_tokens (tokenizeLine line) ⟨none, 0⟩

/-- One end of one of the executor's anonymous pipes: `rd i` and `wr i` are
`pipe_fds[i][0]` and `pipe_fds[i][1]` (shell.c line 188). -/
inductive PipeEnd where
  | rd (i : Nat)
  | wr (i : Nat)
deriving DecidableEq, Repr

/-- All pipe ends created by the pipe loop of `execute_pipeline`
(shell.c lines 197-204): pipes 0 .. num_cmds-2, both ends. -/
def allPipeEnds (num_cmds : Nat) : List PipeEnd :=
  (List.range (num_cmds - 1)).flatMap (fun i => [PipeEnd.rd i, PipeEnd.wr i])

/-- `input_fd` for command i (shell.c line 208):
`(i > 0) ? pipe_fds[i-1][0] : -1`. -/
def inputFdOf (i : Nat) : Option PipeEnd :=
  if 0 < i then some (PipeEnd.rd (i - 1)) else none

/-- `output_fd` for command i (shell.c line 209):
`(i < num_cmds - 1) ? pipe_fds[i][1] : -1`. -/
def outputFdOf (num_cmds i : Nat) : Option PipeEnd :=
  if i < num_cmds - 1 then some (PipeEnd.wr i) else none

/-- `close(fd)` on an fd that may be -1 (absent). -/
def closeFd (fd : Option PipeEnd) (held : List PipeEnd) : List PipeEnd :=
  match fd with
  | none => held
  | some e => held.erase e

/-- The pipe ends the parent still holds just before forking command i
(shell.c fork loop, lines 207-239): initially every created end; after each
fork the parent closes that child's `input_fd` and `output_fd`
(shell.c lines 229-232). -/
def parentHeld (num_cmds : Nat) : Nat → List PipeEnd
  | 0 => allPipeEnds num_cmds
  | i + 1 => closeFd (outputFdOf num_cmds i) (closeFd (inputFdOf i) (parentHeld num_cmds i))

/-- The pipe ends still open in child i when it reaches `execvp`
(shell.c lines 127-170), not counting the pipe objects reachable through the
dup2'd standard descriptors: the child inherits everything the parent held
at fork time and closes only the `input_fd` / `output_fd` it dup2'd onto
stdin/stdout (shell.c lines 135-150). No other `close` occurs in the child. -/
def childPipeEndsAtExec (num_cmds i : Nat) : List PipeEnd :=
  closeFd (outputFdOf num_cmds i) (closeFd (inputFdOf i) (parentHeld num_cmds i))

/-- What the parent's error path does when `execute_command` returns -1 at
index k (shell.c lines 216-224). -/
structure ForkFailCleanup where
  closed : List PipeEnd
  waited : List Nat
  ret : Nat
deriving DecidableEq, Repr

/-- The cleanup of shell.c lines 216-224: wait once for each already-forked
child j < k (line 219) and return 1 (line 223). The error path contains no
`close` call, so the list of pipe ends it closes is empty. -/
def forkFailCleanup (k : Nat) : ForkFailCleanup :=
  ⟨[], List.range k, 1⟩

/-- Decoded result of one `waitpid` call: failure (-1), normal exit with a
code, or termination by a signal (the `WIFEXITED` / `WIFSIGNALED` view of
the status word, shell.c lines 249-259). -/
inductive WaitRes where
  | werr
  | wexited (code : Nat)
  | wsignaled (sig : Nat)
deriving DecidableEq, Repr

/-- The operating-system behaviour `execute_pipeline` is exposed to: whether
the fork for child i succeeds, and what waiting on child i reports. -/
structure ExecEnv where
  forkOk : Nat → Bool
  wait : Nat → WaitRes

/-- The argv guard of `execute_command` (shell.c lines 118-119):
`!cmd->argv || !cmd->argv[0]` makes it fail before forking. -/
def cmdOk (c : command_t) : Bool :=
  match c.argv with
  | some (_ :: _) => true
  | _ => false

/-- Whether `execute_command` succeeds for index i: the argv guard passes
and the fork succeeds (shell.c lines 116-125). -/
def forkOkAt (cmds : List command_t) (env : ExecEnv) (i : Nat) : Bool :=
  (match cmds[i]? with
   | some c => cmdOk c
   | none => false) && env.forkOk i

/-- The first index at which `execute_command` fails, if any: the fork loop
launches children in order and stops at the first failure
(shell.c lines 207-224). -/
def firstFailIdx (cmds : List command_t) (env : ExecEnv) : Option Nat :=
  (List.range cmds.length).find? (fun i => !forkOkAt cmds env i)

/-- One iteration of the foreground wait loop (shell.c lines 247-261):
`exit_status` is updated only at the last index, to `WEXITSTATUS` (the low
8 bits) on normal exit and to `128 + WTERMSIG` on signal termination; a
failed `waitpid` leaves it unchanged. -/
def waitStep (env : ExecEnv) (n : Nat) (acc : Nat) (i : Nat) : Nat :=
  match env.wait i with
  | WaitRes.werr => acc
  | WaitRes.wexited c => if i = n - 1 then c % 256 else acc
  | WaitRes.wsignaled s => if i = n - 1 then 128 + s else acc

/-- The exit status returned by `execute_pipeline` (shell.c lines 182-272):
0 for an empty pipeline (lines 183-184); 1 if some `execute_command` fails
(lines 216-224); for a background pipeline (flag of the last command,
line 243) the initial `exit_status = 0` is returned without waiting
(lines 263-267); for a foreground pipeline the wait loop of lines 245-261
runs over all children. Pipe creation and allocation failures (which also
return 1) are not modelled. -/
def execute_pipeline (cmds : List command_t) (env : ExecEnv) : Nat :=
  if h : cmds = [] then 0
  else
    match firstFailIdx cmds env with
    | some _ => 1
    | none =>
      if (cmds.getLast h).background then 0
      else (List.range cmds.length).foldl (waitStep env cmds.length) 0

/-! ## Helper lemmas about the scanner -/

theorem scanToken_length (cs : List Char) (inq : Bool) (qc : Char) :
    (scanToken cs inq qc).1.length + (scanToken cs inq qc).2.length = cs.length := by
  induction cs generalizing inq qc with
  | nil => simp [scanToken]
  | cons c rest ih =>
    simp only [scanToken]
    split
    · have := ih true c
      simp only [List.length_cons]
      omega
    · split
      · have := ih false qc
        simp only [List.length_cons]
        omega
      · split
        · simp
        · have := ih inq qc
          simp only [List.length_cons]
          omega

theorem scanToken_fst_ne_nil (c : Char) (rest : List Char) (qc : Char)
    (h : isSpaceC c = false) : (scanToken (c :: rest) false qc).1 ≠ [] := by
  simp only [scanToken]
  split
  · simp
  · split
    · simp_all
    · split
      · simp_all
      · simp

theorem dropWhile_head_not {α : Type} (p : α → Bool) (l : List α) (a : α)
    (l' : List α) (h : l.dropWhile p = a :: l') : p a = false := by
  induction l with
  | nil => simp at h
  | cons b t ih =>
    rw [List.dropWhile_cons] at h
    by_cases hb : p b = true
    · simp only [hb, if_true] at h
      exact ih h
    · simp only [Bool.not_eq_true] at hb
      simp only [hb] at h
      cases h
      simpa using hb

theorem dropWhile_len_le {α : Type} (p : α → Bool) (l : List α) :
    (l.dropWhile p).length ≤ l.length := by
  induction l with
  | nil => simp
  | cons a t ih =>
    rw [List.dropWhile_cons]
    split
    · exact Nat.le_trans ih (by simp)
    · simp

theorem mem_of_mem_dropWhile {α : Type} (p : α → Bool) (l : List α) (c : α)
    (h : c ∈ l.dropWhile p) : c ∈ l := by
  induction l with
  | nil => simpa using h
  | cons a t ih =>
    rw [List.dropWhile_cons] at h
    split at h
    · exact List.mem_cons_of_mem a (ih h)
    · exact h

/-- The tail of the scanner's remainder is shorter than the input whenever
the input starts (after whitespace) with a non-space character. -/
theorem scanRest_len_lt (cs : List Char) (hne : cs.dropWhile isSpaceC ≠ []) :
    ((scanToken (cs.dropWhile isSpaceC) false (Char.ofNat 0)).2.tail).length < cs.length := by
  rcases hd : cs.dropWhile isSpaceC with _ | ⟨a, t⟩
  · exact absurd hd hne
  · have ha : isSpaceC a = false := dropWhile_head_not isSpaceC cs a t hd
    have h1 : (scanToken (a :: t) false (Char.ofNat 0)).1 ≠ [] :=
      scanToken_fst_ne_nil a t (Char.ofNat 0) ha
    have h2 := scanToken_length (a :: t) false (Char.ofNat 0)
    have h3 : (cs.dropWhile isSpaceC).length ≤ cs.length := dropWhile_len_le isSpaceC cs
    rw [hd] at h3
    have h4 : 1 ≤ (scanToken (a :: t) false (Char.ofNat 0)).1.length := by
      cases hh : (scanToken (a :: t) false (Char.ofNat 0)).1 with
      | nil => exact absurd hh h1
      | cons x xs => simp
    have h5 := List.length_tail ((scanToken (a :: t) false (Char.ofNat 0)).2)
    simp only [List.length_cons] at h2 h3
    omega

/-- The scanner's budget saturates at the length of the input: any two
sufficient budgets give the same lexemes. -/
theorem tokenizeAux_saturate (n : Nat) :
    ∀ f1 f2 cs, cs.length ≤ n → cs.length ≤ f1 → cs.length ≤ f2 →
      tokenizeAux f1 cs = tokenizeAux f2 cs := by
  induction n with
  | zero =>
    intro f1 f2 cs hn _ _
    have hcs : cs = [] := by
      cases cs
      · rfl
      · simp at hn
    subst hcs
    cases f1 <;> cases f2 <;> simp [tokenizeAux]
  | succ n ih =>
    intro f1 f2 cs hn h1 h2
    rcases hcs : cs with _ | ⟨c, t⟩
    · cases f1 <;> cases f2 <;> simp [tokenizeAux]
    · rw [← hcs]
      have hpos : 0 < cs.length := by rw [hcs]; simp
      rcases f1 with _ | a
      · omega
      rcases f2 with _ | b
      · omega
      by_cases hd : cs.dropWhile isSpaceC = []
      · simp [tokenizeAux, hd]
      · have hlt := scanRest_len_lt cs hd
        simp only [tokenizeAux, hd, if_neg]
        rw [ih a b _ (by omega) (by omega) (by omega)]

/-- The bounded scan is the truncation of the unbounded scan: characters
past the last lexeme within the bound are never reported as an error, they
are simply not scanned. -/
theorem tokenizeAux_eq_take (n : Nat) (cs : List Char) :
    tokenizeAux n cs = (tokenizeAll cs).take n := by
  induction n generalizing cs with
  | zero => simp [tokenizeAux]
  | succ n ih =>
    by_cases hd : cs.dropWhile isSpaceC = []
    · cases hl : cs.length <;> simp [tokenizeAll, tokenizeAux, hl, hd]
    · have hpos : 0 < cs.length := by
        rcases cs with _ | ⟨c, t⟩
        · simp at hd
        · simp
      have hlt := scanRest_len_lt cs hd
      rcases hl : cs.length with _ | m
      · omega
      have hall : tokenizeAll cs =
          (scanToken (cs.dropWhile isSpaceC) false (Char.ofNat 0)).1 ::
            tokenizeAux m ((scanToken (cs.dropWhile isSpaceC) false (Char.ofNat 0)).2.tail) := by
        rw [tokenizeAll, hl]
        simp [tokenizeAux, hd]
      have hsat : tokenizeAux m ((scanToken (cs.dropWhile isSpaceC) false (Char.ofNat 0)).2.tail) =
          tokenizeAll ((scanToken (cs.dropWhile isSpaceC) false (Char.ofNat 0)).2.tail) := by
        rw [tokenizeAll]
        exact tokenizeAux_saturate m _ _ _ (by omega) (by omega) (by omega)
      rw [hall]
      simp only [tokenizeAux, hd, if_neg, List.take_succ_cons]
      rw [ih, hsat]
      simp

/-- Unfolding equation for `tokenizeAll`. -/
theorem tokenizeAll_eq (cs : List Char) : tokenizeAll cs =
    if cs.dropWhile isSpaceC = [] then []
    else
      (scanToken (cs.dropWhile isSpaceC) false (Char.ofNat 0)).1 ::
        tokenizeAll ((scanToken (cs.dropWhile isSpaceC) false (Char.ofNat 0)).2.tail) := by
  rcases hl : cs.length with _ | m
  · have hcs : cs = [] := by
      cases cs
      · rfl
      · simp at hl
    subst hcs
    simp [tokenizeAll, tokenizeAux]
  · by_cases hd : cs.dropWhile isSpaceC = []
    · rw [if_pos hd]
      unfold tokenizeAll
      rw [hl]
      simp [tokenizeAux, hd]
    · rw [if_neg hd]
      unfold tokenizeAll
      rw [hl]
      simp only [tokenizeAux, hd, if_neg]
      have hlt := scanRest_len_lt cs hd
      rw [hl] at hlt
      rw [tokenizeAux_saturate m m
        ((scanToken (cs.dropWhile isSpaceC) false (Char.ofNat 0)).2.tail).length _
        (by omega) (by omega) (by omega)]
      simp

theorem wordsRest_len_lt (cs : List Char) (hne : cs.dropWhile isSpaceC ≠ []) :
    ((cs.dropWhile isSpaceC).dropWhile (fun c => !isSpaceC c)).length < cs.length := by
  rcases hd : cs.dropWhile isSpaceC with _ | ⟨a, t⟩
  · exact absurd hd hne
  · have ha : isSpaceC a = false := dropWhile_head_not isSpaceC cs a t hd
    have h3 : (cs.dropWhile isSpaceC).length ≤ cs.length := dropWhile_len_le isSpaceC cs
    rw [hd] at h3
    have h4 : (a :: t).dropWhile (fun c => !isSpaceC c) = t.dropWhile (fun c => !isSpaceC c) := by
      rw [List.dropWhile_cons_of_pos]
      simp [ha]
    have h5 : (t.dropWhile (fun c => !isSpaceC c)).length ≤ t.length := dropWhile_len_le _ t
    rw [h4]
    simp only [List.length_cons] at h3
    omega

theorem wordsOfFuel_saturate (n : Nat) :
    ∀ f1 f2 cs, cs.length ≤ n → cs.length ≤ f1 → cs.length ≤ f2 →
      wordsOfFuel f1 cs = wordsOfFuel f2 cs := by
  induction n with
  | zero =>
    intro f1 f2 cs hn _ _
    have hcs : cs = [] := by
      cases cs
      · rfl
      · simp at hn
    subst hcs
    cases f1 <;> cases f2 <;> simp [wordsOfFuel]
  | succ n ih =>
    intro f1 f2 cs hn h1 h2
    rcases hcs : cs with _ | ⟨c, t⟩
    · cases f1 <;> cases f2 <;> simp [wordsOfFuel]
    · rw [← hcs]
      have hpos : 0 < cs.length := by rw [hcs]; simp
      rcases f1 with _ | a
      · omega
      rcases f2 with _ | b
      · omega
      by_cases hd : cs.dropWhile isSpaceC = []
      · simp [wordsOfFuel, hd]
      · have hlt := wordsRest_len_lt cs hd
        simp only [wordsOfFuel, hd, if_neg]
        rw [ih a b _ (by omega) (by omega) (by omega)]

/-- Unfolding equation for `wordsOf`. -/
theorem wordsOf_eq (cs : List Char) : wordsOf cs =
    if cs.dropWhile isSpaceC = [] then []
    else
      (cs.dropWhile isSpaceC).takeWhile (fun c => !isSpaceC c) ::
        wordsOf ((cs.dropWhile isSpaceC).dropWhile (fun c => !isSpaceC c)) := by
  rcases hl : cs.length with _ | m
  · have hcs : cs = [] := by
      cases cs
      · rfl
      · simp at hl
    subst hcs
    simp [wordsOf, wordsOfFuel]
  · by_cases hd : cs.dropWhile isSpaceC = []
    · rw [if_pos hd]
      unfold wordsOf
      rw [hl]
      simp [wordsOfFuel, hd]
    · rw [if_neg hd]
      unfold wordsOf
      rw [hl]
      simp only [wordsOfFuel, hd, if_neg]
      have hlt := wordsRest_len_lt cs hd
      rw [hl] at hlt
      rw [wordsOfFuel_saturate m m
        (((cs.dropWhile isSpaceC).dropWhile (fun c => !isSpaceC c)).length) _
        (by omega) (by omega) (by omega)]
      simp

theorem wordsOf_congr (xs ys : List Char)
    (h : xs.dropWhile isSpaceC = ys.dropWhile isSpaceC) : wordsOf xs = wordsOf ys := by
  rw [wordsOf_eq, wordsOf_eq ys, h]

theorem scanToken_no_quote (cs : List Char) (qc : Char) (h : noQuote cs) :
    scanToken cs false qc =
      (cs.takeWhile (fun c => !isSpaceC c), cs.dropWhile (fun c => !isSpaceC c)) := by
  induction cs generalizing qc with
  | nil => simp [scanToken]
  | cons c rest ih =>
    have hc := h c (by simp)
    have hrest : noQuote rest := fun x hx => h x (List.mem_cons_of_mem c hx)
    by_cases hs : isSpaceC c = true
    · simp [scanToken, hc.1, hc.2, hs, List.takeWhile_cons, List.dropWhile_cons]
    · simp [scanToken, hc.1, hc.2, hs, List.takeWhile_cons, List.dropWhile_cons, ih qc hrest]

theorem tokenizeAll_no_quote_aux (n : Nat) :
    ∀ cs : List Char, cs.length ≤ n → noQuote cs → tokenizeAll cs = wordsOf cs := by
  induction n with
  | zero =>
    intro cs hlen _
    have hcs : cs = [] := by
      cases cs
      · rfl
      · simp at hlen
    subst hcs
    rw [tokenizeAll_eq, wordsOf_eq]
    simp
  | succ n ih =>
    intro cs hlen hq
    by_cases hd : cs.dropWhile isSpaceC = []
    · rw [tokenizeAll_eq, wordsOf_eq, if_pos hd, if_pos hd]
    · have hqd : noQuote (cs.dropWhile isSpaceC) := fun x hx =>
        hq x (mem_of_mem_dropWhile isSpaceC cs x hx)
      have hscan := scanToken_no_quote (cs.dropWhile isSpaceC) (Char.ofNat 0) hqd
      rw [tokenizeAll_eq, wordsOf_eq, if_neg hd, if_neg hd, hscan]
      have hrec : tokenizeAll ((cs.dropWhile isSpaceC).dropWhile (fun c => !isSpaceC c)).tail =
          wordsOf ((cs.dropWhile isSpaceC).dropWhile (fun c => !isSpaceC c)) := by
        rcases hr : (cs.dropWhile isSpaceC).dropWhile (fun c => !isSpaceC c) with _ | ⟨x, xs⟩
        · simp only [List.tail_nil]
          rw [tokenizeAll_eq, wordsOf_eq]
          simp
        · have hx : (fun c => !isSpaceC c) x = false :=
            dropWhile_head_not (fun c => !isSpaceC c) (cs.dropWhile isSpaceC) x xs hr
          have hxs : isSpaceC x = true := by simpa using hx
          have hlt := wordsRest_len_lt cs hd
          rw [hr] at hlt
          have hlen5 : xs.length ≤ n := by
            simp only [List.length_cons] at hlt
            omega
          have hq5 : noQuote xs := by
            intro y hy
            have : y ∈ cs.dropWhile isSpaceC := by
              apply mem_of_mem_dropWhile (fun c => !isSpaceC c)
              rw [hr]
              exact List.mem_cons_of_mem x hy
            exact hqd y this
          simp only [List.tail_cons]
          rw [ih xs hlen5 hq5]
          apply wordsOf_congr
          rw [List.dropWhile_cons_of_pos]
          simpa using hxs
      rw [hrec]

theorem tokenizeAll_no_quote (cs : List Char) (hq : noQuote cs) :
    tokenizeAll cs = wordsOf cs :=
  tokenizeAll_no_quote_aux cs.length cs (Nat.le_refl _) hq

/-! ## Helper lemmas about the builder -/

theorem countPipes_cons (t : String) (ts : List String) :
    countPipes (t :: ts) = (if t = "|" then 1 else 0) + countPipes ts := by
  by_cases h : t = "|" <;> simp [countPipes, List.filter_cons, h] <;> omega

theorem redirOk_tail (a : String) (l : List String) (h : redirOk (a :: l)) : redirOk l := by
  cases l with
  | nil => trivial
  | cons b t => exact h.2

theorem getLast?_cons_ne (x : String) (l : List String) (h : l ≠ []) :
    (x :: l).getLast? = l.getLast? := by
  cases l with
  | nil => exact absurd rfl h
  | cons y t => exact List.getLast?_cons_cons

theorem countPipes_le_cons (y : String) (l : List String) :
    countPipes l ≤ countPipes (y :: l) := by
  rw [countPipes_cons]
  split <;> omega

/-- Every command the inner walk finishes carries an assigned argv vector
(parser.c lines 148-149 run at every non-error exit). -/
theorem parseCmdLoop_argv (isLast : Bool) (ts : List String) (cmd : command_t) (ws : List String) :
    ∀ cmd2 rest, parseCmdLoop isLast ts cmd ws = some (cmd2, rest) → ∃ l, cmd2.argv = some l := by
  induction ts, cmd, ws using parseCmdLoop.induct isLast with
  | case1 cmd ws =>
    intro cmd2 rest h
    have he : parseCmdLoop isLast [] cmd ws = some ({ cmd with argv := some ws }, []) := rfl
    rw [he, Option.some.injEq, Prod.mk.injEq] at h
    exact ⟨ws, by rw [← h.1]⟩
  | case2 rest cmd ws =>
    intro cmd2 rest2 h
    have he : parseCmdLoop isLast ("|" :: rest) cmd ws =
        some ({ cmd with argv := some ws }, rest) := by
      rw [parseCmdLoop.eq_def]
      simp
    rw [he, Option.some.injEq, Prod.mk.injEq] at h
    exact ⟨ws, by rw [← h.1]⟩
  | case3 cmd ws _ =>
    intro cmd2 rest h
    rw [parseCmdLoop.eq_def] at h
    simp at h
  | case4 cmd ws f rest2 _ ih =>
    intro cmd2 rest h
    exact ih cmd2 rest h
  | case5 cmd ws _ _ =>
    intro cmd2 rest h
    rw [parseCmdLoop.eq_def] at h
    simp at h
  | case6 cmd ws f rest2 _ _ ih =>
    intro cmd2 rest h
    exact ih cmd2 rest h
  | case7 cmd ws _ _ _ =>
    intro cmd2 rest h
    rw [parseCmdLoop.eq_def] at h
    simp at h
  | case8 cmd ws f rest2 _ _ _ ih =>
    intro cmd2 rest h
    exact ih cmd2 rest h
  | case9 rest cmd ws _ _ _ _ =>
    intro cmd2 rest2 h
    have he : parseCmdLoop isLast ("&" :: rest) cmd ws =
        some ({ { cmd with argv := some ws } with background := if isLast then true else cmd.background }, rest) := by
      rw [parseCmdLoop.eq_def]
      simp
    rw [he, Option.some.injEq, Prod.mk.injEq] at h
    exact ⟨ws, by rw [← h.1]⟩
  | case10 t rest cmd ws h1 h2 h3 h4 h5 hargc =>
    intro cmd2 rest2 h
    rw [parseCmdLoop.eq_def] at h
    simp [h1, h2, h3, h4, h5, hargc] at h
  | case11 t rest cmd ws h1 h2 h3 h4 h5 hargc ih =>
    intro cmd2 rest2 h
    have he : parseCmdLoop isLast (t :: rest) cmd ws =
        parseCmdLoop isLast rest cmd (ws ++ [t]) := by
      rw [parseCmdLoop.eq_def]
      simp [h1, h2, h3, h4, h5, hargc]
    rw [he] at h
    exact ih cmd2 rest2 h

/-- Whatever list the outer walk produces, each command either got its argv
assigned by the inner walk or is a zero-initialized command the walk never
reached. -/
theorem parseLoopFuel_mem : ∀ (fuel num idx : Nat) (ts : List String) (cmds : List command_t),
    parseLoopFuel fuel num idx ts = some cmds →
    ∀ c ∈ cmds, (∃ l, c.argv = some l) ∨ c = command_t.init := by
  intro fuel
  induction fuel with
  | zero =>
    intro num idx ts cmds h c hc
    simp only [parseLoopFuel, Option.some.injEq] at h
    right
    rw [← h] at hc
    exact List.eq_of_mem_replicate hc
  | succ fuel ih =>
    intro num idx ts cmds h c hc
    by_cases hcond : idx < num ∧ ts ≠ []
    · simp only [parseLoopFuel, if_pos hcond] at h
      rcases he : parseCmdLoop (decide (idx = num - 1)) ts command_t.init [] with _ | ⟨cmd, rest⟩
      · rw [he] at h
        simp at h
      · rw [he] at h
        obtain ⟨l2, hl2, hcmds⟩ := Option.map_eq_some'.mp h
        rw [← hcmds] at hc
        rcases List.mem_cons.mp hc with hceq | hcl
        · subst hceq
          exact Or.inl (parseCmdLoop_argv _ ts command_t.init [] c rest he)
        · exact ih num (idx + 1) rest l2 hl2 c hcl
    · simp only [parseLoopFuel, if_neg hcond, Option.some.injEq] at h
      right
      rw [← h] at hc
      exact List.eq_of_mem_replicate hc

/-- With the fuel the wrapper supplies, a successful outer walk always
returns exactly `num - idx` commands (walked commands plus the untouched
zero-initialized remainder of the `calloc` array). -/
theorem parseLoopFuel_length : ∀ (fuel num idx : Nat) (ts : List String) (cmds : List command_t),
    fuel = num - idx → parseLoopFuel fuel num idx ts = some cmds →
    cmds.length = num - idx := by
  intro fuel
  induction fuel with
  | zero =>
    intro num idx ts cmds _ h
    simp only [parseLoopFuel, Option.some.injEq] at h
    rw [← h]
    simp
  | succ fuel ih =>
    intro num idx ts cmds hf h
    by_cases hcond : idx < num ∧ ts ≠ []
    · simp only [parseLoopFuel, if_pos hcond] at h
      rcases he : parseCmdLoop (decide (idx = num - 1)) ts command_t.init [] with _ | ⟨cmd, rest⟩
      · rw [he] at h
        simp at h
      · rw [he] at h
        obtain ⟨l2, hl2, hcmds⟩ := Option.map_eq_some'.mp h
        have hlen := ih num (idx + 1) rest l2 (by omega) hl2
        rw [← hcmds]
        simp only [List.length_cons, hlen]
        omega
    · simp only [parseLoopFuel, if_neg hcond, Option.some.injEq] at h
      rw [← h]
      simp

/-- When no lexeme is a redirection operator and the word count cannot reach
the argv bound, the inner walk always succeeds and leaves a suffix-like
remainder. -/
theorem parseCmdLoop_total (isLast : Bool) (ts : List String) (cmd : command_t) (ws : List String) :
    (∀ x ∈ ts, x ∉ redirOps) → ws.length + ts.length ≤ MAX_TOKENS - 1 →
    ∃ cmd2 rest, parseCmdLoop isLast ts cmd ws = some (cmd2, rest) ∧ rest.Sublist ts := by
  induction ts, cmd, ws using parseCmdLoop.induct isLast with
  | case1 cmd ws =>
    intro _ _
    exact ⟨_, _, rfl, List.Sublist.refl []⟩
  | case2 rest cmd ws =>
    intro _ _
    refine ⟨{ cmd with argv := some ws }, rest, ?_, List.sublist_cons_self _ _⟩
    rw [parseCmdLoop.eq_def]
    simp
  | case3 cmd ws _ =>
    intro hnr _
    exact absurd (show ("<" : String) ∈ redirOps by simp [redirOps]) (hnr "<" (by simp))
  | case4 cmd ws f rest2 _ _ =>
    intro hnr _
    exact absurd (show ("<" : String) ∈ redirOps by simp [redirOps]) (hnr "<" (by simp))
  | case5 cmd ws _ _ =>
    intro hnr _
    exact absurd (show (">" : String) ∈ redirOps by simp [redirOps]) (hnr ">" (by simp))
  | case6 cmd ws f rest2 _ _ _ =>
    intro hnr _
    exact absurd (show (">" : String) ∈ redirOps by simp [redirOps]) (hnr ">" (by simp))
  | case7 cmd ws _ _ _ =>
    intro hnr _
    exact absurd (show (">>" : String) ∈ redirOps by simp [redirOps]) (hnr ">>" (by simp))
  | case8 cmd ws f rest2 _ _ _ _ =>
    intro hnr _
    exact absurd (show (">>" : String) ∈ redirOps by simp [redirOps]) (hnr ">>" (by simp))
  | case9 rest cmd ws _ _ _ _ =>
    intro _ _
    refine ⟨{ { cmd with argv := some ws } with background := if isLast then true else cmd.background },
      rest, ?_, List.sublist_cons_self _ _⟩
    rw [parseCmdLoop.eq_def]
    simp
  | case10 t rest cmd ws h1 h2 h3 h4 h5 hargc =>
    intro _ hb
    exfalso
    simp only [MAX_TOKENS] at hargc hb
    simp only [List.length_cons] at hb
    omega
  | case11 t rest cmd ws h1 h2 h3 h4 h5 hargc ih =>
    intro hnr hb
    have hnr2 : ∀ x ∈ rest, x ∉ redirOps := fun x hx => hnr x (List.mem_cons_of_mem _ hx)
    have hb2 : (ws ++ [t]).length + rest.length ≤ MAX_TOKENS - 1 := by
      simp only [List.length_append, List.length_cons, List.length_nil] at hb ⊢
      omega
    obtain ⟨cmd2, rest2, heq, hsub⟩ := ih hnr2 hb2
    have he : parseCmdLoop isLast (t :: rest) cmd ws =
        parseCmdLoop isLast rest cmd (ws ++ [t]) := by
      rw [parseCmdLoop.eq_def]
      simp [h1, h2, h3, h4, h5, hargc]
    exact ⟨cmd2, rest2, by rw [he, heq], hsub.trans (List.sublist_cons_self _ _)⟩

/-- With no redirection lexemes and at most `MAX_TOKENS - 1` lexemes (as the
scanner guarantees), the outer walk never fails. -/
theorem parseLoopFuel_total : ∀ (fuel num idx : Nat) (ts : List String),
    (∀ x ∈ ts, x ∉ redirOps) → ts.length ≤ MAX_TOKENS - 1 →
    ∃ cmds, parseLoopFuel fuel num idx ts = some cmds := by
  intro fuel
  induction fuel with
  | zero =>
    intro num idx ts _ _
    exact ⟨_, rfl⟩
  | succ fuel ih =>
    intro num idx ts hnr hlen
    by_cases hcond : idx < num ∧ ts ≠ []
    · obtain ⟨cmd2, rest, heq, hsub⟩ :=
        parseCmdLoop_total (decide (idx = num - 1)) ts command_t.init [] hnr (by simpa using hlen)
      obtain ⟨cmds, hcmds⟩ := ih num (idx + 1) rest
        (fun x hx => hnr x (hsub.subset hx)) (Nat.le_trans hsub.length_le hlen)
      refine ⟨cmd2 :: cmds, ?_⟩
      simp [parseLoopFuel, if_pos hcond, heq, hcmds]
    · exact ⟨List.replicate (num - idx) command_t.init, by simp [parseLoopFuel, if_neg hcond]⟩

/-- If the lexemes of one command end (with no `&`, and no redirection
operator used as another's target) in a redirection operator, the inner walk
either hits the `goto error` of parser.c lines 123/127/132, or exits through
a `|` leaving a strictly pipe-poorer remainder with the same final lexeme. -/
theorem parseCmdLoop_last_redir (isLast : Bool) (t : String) (ts : List String)
    (cmd : command_t) (ws : List String) :
    "&" ∉ ts → redirOk ts → ts.getLast? = some t → t ∈ redirOps →
    parseCmdLoop isLast ts cmd ws = none ∨
    ∃ cmd2 rest, parseCmdLoop isLast ts cmd ws = some (cmd2, rest) ∧
      rest ≠ [] ∧ rest.getLast? = some t ∧ "&" ∉ rest ∧ redirOk rest ∧
      countPipes rest < countPipes ts := by
  induction ts, cmd, ws using parseCmdLoop.induct isLast with
  | case1 cmd ws =>
    intro _ _ hlast _
    simp at hlast
  | case2 rest cmd ws =>
    intro hamp hro hlast ht
    rcases rest with _ | ⟨r1, rr⟩
    · simp only [List.getLast?_singleton, Option.some.injEq] at hlast
      rw [← hlast] at ht
      simp [redirOps] at ht
    · right
      refine ⟨{ cmd with argv := some ws }, r1 :: rr, ?_, by simp, ?_, ?_, ?_, ?_⟩
      · rw [parseCmdLoop.eq_def]
        simp
      · rw [← getLast?_cons_ne "|" (r1 :: rr) (by simp)]
        exact hlast
      · intro hx
        exact hamp (List.mem_cons_of_mem _ hx)
      · exact redirOk_tail _ _ hro
      · rw [countPipes_cons "|" (r1 :: rr)]
        simp
  | case3 cmd ws _ =>
    intro _ _ _ _
    left
    rw [parseCmdLoop.eq_def]
    simp
  | case4 cmd ws f rest2 _ ih =>
    intro hamp hro hlast ht
    have hpair : f ∉ redirOps := hro.1 (by simp [redirOps])
    have he : parseCmdLoop isLast ("<" :: f :: rest2) cmd ws =
        parseCmdLoop isLast rest2 { cmd with input_file := some f } ws := by
      rw [parseCmdLoop.eq_def]
      simp
    rcases rest2 with _ | ⟨x, xs⟩
    · rw [show (["<", f] : List String).getLast? = some f from rfl, Option.some.injEq] at hlast
      rw [← hlast] at ht
      exact absurd ht hpair
    · have hlast2 : (x :: xs).getLast? = some t := by
        rw [← getLast?_cons_ne f (x :: xs) (by simp), ← getLast?_cons_ne "<" (f :: x :: xs) (by simp)]
        exact hlast
      have hamp2 : "&" ∉ (x :: xs) := fun hx =>
        hamp (List.mem_cons_of_mem _ (List.mem_cons_of_mem _ hx))
      have hro2 : redirOk (x :: xs) := redirOk_tail _ _ (redirOk_tail _ _ hro)
      rcases ih hamp2 hro2 hlast2 ht with hnone | ⟨cmd2, rest, heq, hne, hl, ha, hr, hcp⟩
      · left
        rw [he, hnone]
      · right
        refine ⟨cmd2, rest, by rw [he, heq], hne, hl, ha, hr, ?_⟩
        calc countPipes rest < countPipes (x :: xs) := hcp
          _ ≤ countPipes (f :: x :: xs) := countPipes_le_cons _ _
          _ ≤ countPipes ("<" :: f :: x :: xs) := countPipes_le_cons _ _
  | case5 cmd ws _ _ =>
    intro _ _ _ _
    left
    rw [parseCmdLoop.eq_def]
    simp
  | case6 cmd ws f rest2 _ _ ih =>
    intro hamp hro hlast ht
    have hpair : f ∉ redirOps := hro.1 (by simp [redirOps])
    have he : parseCmdLoop isLast (">" :: f :: rest2) cmd ws =
        parseCmdLoop isLast rest2 { cmd with output_file := some f, append_output := false } ws := by
      rw [parseCmdLoop.eq_def]
      simp
    rcases rest2 with _ | ⟨x, xs⟩
    · rw [show ([">", f] : List String).getLast? = some f from rfl, Option.some.injEq] at hlast
      rw [← hlast] at ht
      exact absurd ht hpair
    · have hlast2 : (x :: xs).getLast? = some t := by
        rw [← getLast?_cons_ne f (x :: xs) (by simp), ← getLast?_cons_ne ">" (f :: x :: xs) (by simp)]
        exact hlast
      have hamp2 : "&" ∉ (x :: xs) := fun hx =>
        hamp (List.mem_cons_of_mem _ (List.mem_cons_of_mem _ hx))
      have hro2 : redirOk (x :: xs) := redirOk_tail _ _ (redirOk_tail _ _ hro)
      rcases ih hamp2 hro2 hlast2 ht with hnone | ⟨cmd2, rest, heq, hne, hl, ha, hr, hcp⟩
      · left
        rw [he, hnone]
      · right
        refine ⟨cmd2, rest, by rw [he, heq], hne, hl, ha, hr, ?_⟩
        calc countPipes rest < countPipes (x :: xs) := hcp
          _ ≤ countPipes (f :: x :: xs) := countPipes_le_cons _ _
          _ ≤ countPipes (">" :: f :: x :: xs) := countPipes_le_cons _ _
  | case7 cmd ws _ _ _ =>
    intro _ _ _ _
    left
    rw [parseCmdLoop.eq_def]
    simp
  | case8 cmd ws f rest2 _ _ _ ih =>
    intro hamp hro hlast ht
    have hpair : f ∉ redirOps := hro.1 (by simp [redirOps])
    have he : parseCmdLoop isLast (">>" :: f :: rest2) cmd ws =
        parseCmdLoop isLast rest2 { cmd with output_file := some f, append_output := true } ws := by
      rw [parseCmdLoop.eq_def]
      simp
    rcases rest2 with _ | ⟨x, xs⟩
    · rw [show ([">>", f] : List String).getLast? = some f from rfl, Option.some.injEq] at hlast
      rw [← hlast] at ht
      exact absurd ht hpair
    · have hlast2 : (x :: xs).getLast? = some t := by
        rw [← getLast?_cons_ne f (x :: xs) (by simp), ← getLast?_cons_ne ">>" (f :: x :: xs) (by simp)]
        exact hlast
      have hamp2 : "&" ∉ (x :: xs) := fun hx =>
        hamp (List.mem_cons_of_mem _ (List.mem_cons_of_mem _ hx))
      have hro2 : redirOk (x :: xs) := redirOk_tail _ _ (redirOk_tail _ _ hro)
      rcases ih hamp2 hro2 hlast2 ht with hnone | ⟨cmd2, rest, heq, hne, hl, ha, hr, hcp⟩
      · left
        rw [he, hnone]
      · right
        refine ⟨cmd2, rest, by rw [he, heq], hne, hl, ha, hr, ?_⟩
        calc countPipes rest < countPipes (x :: xs) := hcp
          _ ≤ countPipes (f :: x :: xs) := countPipes_le_cons _ _
          _ ≤ countPipes (">>" :: f :: x :: xs) := countPipes_le_cons _ _
  | case9 rest cmd ws _ _ _ _ =>
    intro hamp _ _ _
    exact absurd (List.mem_cons_self "&" rest) hamp
  | case10 t0 rest cmd ws h1 h2 h3 h4 h5 hargc =>
    intro _ _ _ _
    left
    rw [parseCmdLoop.eq_def]
    simp [h1, h2, h3, h4, h5, hargc]
  | case11 t0 rest cmd ws h1 h2 h3 h4 h5 hargc ih =>
    intro hamp hro hlast ht
    have he : parseCmdLoop isLast (t0 :: rest) cmd ws =
        parseCmdLoop isLast rest cmd (ws ++ [t0]) := by
      rw [parseCmdLoop.eq_def]
      simp [h1, h2, h3, h4, h5, hargc]
    rcases rest with _ | ⟨x, xs⟩
    · simp only [List.getLast?_singleton, Option.some.injEq] at hlast
      rw [← hlast] at ht
      simp only [redirOps, List.mem_cons, List.not_mem_nil, or_false] at ht
      rcases ht with ht | ht | ht
      · exact absurd ht h2
      · exact absurd ht h3
      · exact absurd ht h4
    · have hlast2 : (x :: xs).getLast? = some t := by
        rw [← getLast?_cons_ne t0 (x :: xs) (by simp)]
        exact hlast
      have hamp2 : "&" ∉ (x :: xs) := fun hx => hamp (List.mem_cons_of_mem _ hx)
      have hro2 : redirOk (x :: xs) := redirOk_tail _ _ hro
      rcases ih hamp2 hro2 hlast2 ht with hnone | ⟨cmd2, rest, heq, hne, hl, ha, hr, hcp⟩
      · left
        rw [he, hnone]
      · right
        exact ⟨cmd2, rest, by rw [he, heq], hne, hl, ha, hr,
          Nat.lt_of_lt_of_le hcp (countPipes_le_cons _ _)⟩

/-- If the lexemes end in a redirection operator in operator position, the
outer walk fails: it cannot run out of commands first, because reaching the
next command always costs one `|` and only `num_commands - 1` of them
exist. -/
theorem parseLoopFuel_redir_none : ∀ (fuel num idx : Nat) (ts : List String) (t : String),
    fuel = num - idx → idx < num → "&" ∉ ts → redirOk ts → ts.getLast? = some t →
    t ∈ redirOps → countPipes ts ≤ num - 1 - idx →
    parseLoopFuel fuel num idx ts = none := by
  intro fuel
  induction fuel with
  | zero =>
    intro num idx ts t hf hidx _ _ _ _ _
    exfalso
    omega
  | succ fuel ih =>
    intro num idx ts t hf hidx hamp hro hlast ht hcp
    have hne : ts ≠ [] := by
      intro hts
      rw [hts] at hlast
      simp at hlast
    have hc : idx < num ∧ ts ≠ [] := ⟨hidx, hne⟩
    rcases parseCmdLoop_last_redir (decide (idx = num - 1)) t ts command_t.init [] hamp hro hlast ht
      with hnone | ⟨cmd2, rest, heq, hrne, hrl, hra, hrr, hrcp⟩
    · simp [parseLoopFuel, if_pos hc, hnone]
    · have hidx2 : idx + 1 < num := by omega
      have hrec := ih num (idx + 1) rest t (by omega) hidx2 hra hrr hrl ht (by omega)
      simp [parseLoopFuel, if_pos hc, heq, hrec]

/-! ## Helper lemmas about the executor -/

theorem foldl_waitStep_const (env : ExecEnv) (n : Nat) :
    ∀ (l : List Nat) (acc : Nat), (∀ i ∈ l, i ≠ n - 1) →
      l.foldl (waitStep env n) acc = acc := by
  intro l
  induction l with
  | nil =>
    intro acc _
    rfl
  | cons j tl ih =>
    intro acc hne
    have hj : j ≠ n - 1 := hne j (by simp)
    have hstep : waitStep env n acc j = acc := by
      unfold waitStep
      cases env.wait j <;> simp [hj]
    rw [List.foldl_cons, hstep]
    exact ih acc (fun i hi => hne i (List.mem_cons_of_mem _ hi))

/-- Closed form of the foreground wait loop: the returned status is read off
the last child's wait result alone (shell.c lines 245-261). -/
theorem exec_fg_status (cmds : List command_t) (env : ExecEnv) (h : cmds ≠ [])
    (hf : firstFailIdx cmds env = none) (hb : (cmds.getLast h).background = false) :
    execute_pipeline cmds env =
      (match env.wait (cmds.length - 1) with
       | WaitRes.werr => 0
       | WaitRes.wexited c => c % 256
       | WaitRes.wsignaled s => 128 + s) := by
  obtain ⟨m, hm⟩ : ∃ m, cmds.length = m + 1 := by
    rcases cmds with _ | ⟨c, tl⟩
    · exact absurd rfl h
    · exact ⟨tl.length, rfl⟩
  unfold execute_pipeline
  rw [dif_neg h, hf]
  simp only [hb, Bool.false_eq_true, if_false]
  rw [hm, List.range_succ, List.foldl_append]
  rw [foldl_waitStep_const env (m + 1) (List.range m) 0
    (fun i hi => by have := List.mem_range.mp hi; omega)]
  simp only [List.foldl_cons, List.foldl_nil]
  unfold waitStep
  have hmm : m + 1 - 1 = m := by omega
  rw [hmm]
  cases env.wait m <;> simp

/-- A background pipeline returns zero without waiting
(shell.c lines 263-267). -/
theorem exec_bg_status (cmds : List command_t) (env : ExecEnv) (h : cmds ≠ [])
    (hf : firstFailIdx cmds env = none) (hb : (cmds.getLast h).background = true) :
    execute_pipeline cmds env = 0 := by
  unfold execute_pipeline
  rw [dif_neg h, hf]
  simp [hb]

/-! ## Claim theorems -/

/-- Claim C1 (refuting evaluation): the claim states that in every executed
pipeline of N >= 2 commands each child closes, before exec, every pipe end
not dup2'd onto its standard input/output. The child wiring of
`execute_command` closes only its own `input_fd` / `output_fd`, so child 0 of
a 2-command pipeline still holds the read end of pipe 0 at exec, and child 0
of a 3-command pipeline additionally holds both ends of pipe 1, including a
write end whose leak defeats end-of-file propagation on pipe 1; only the last
child is clean. -/
theorem c1_children_keep_pipe_ends :
    childPipeEndsAtExec 2 0 = [PipeEnd.rd 0] ∧
    childPipeEndsAtExec 3 0 = [PipeEnd.rd 0, PipeEnd.rd 1, PipeEnd.wr 1] ∧
    childPipeEndsAtExec 3 1 = [PipeEnd.rd 1] ∧
    childPipeEndsAtExec 3 2 = [] := by
  decide

/-- Claim C2: `execute_pipeline` returns 0 for an empty pipeline; returns 0
immediately after launch for a background pipeline; and for a foreground
pipeline returns the last command's exit code (0-255) if it exited normally,
or 128 plus the signal number if it was signaled, the wait results of all
earlier commands having no influence on the returned status. -/
theorem c2_exit_status :
    (∀ env, execute_pipeline [] env = 0) ∧
    (∀ cmds env (h : cmds ≠ []), firstFailIdx cmds env = none →
      (cmds.getLast h).background = true → execute_pipeline cmds env = 0) ∧
    (∀ cmds env (h : cmds ≠ []) (c : Nat), firstFailIdx cmds env = none →
      (cmds.getLast h).background = false →
      env.wait (cmds.length - 1) = WaitRes.wexited c → c ≤ 255 →
      execute_pipeline cmds env = c) ∧
    (∀ cmds env (h : cmds ≠ []) (s : Nat), firstFailIdx cmds env = none →
      (cmds.getLast h).background = false →
      env.wait (cmds.length - 1) = WaitRes.wsignaled s →
      execute_pipeline cmds env = 128 + s) ∧
    (∀ cmds env env2 (h : cmds ≠ []), firstFailIdx cmds env = none →
      firstFailIdx cmds env2 = none →
      env.wait (cmds.length - 1) = env2.wait (cmds.length - 1) →
      execute_pipeline cmds env = execute_pipeline cmds env2) := by
  refine ⟨?_, ?_, ?_, ?_, ?_⟩
  · intro env
    rfl
  · intro cmds env h hf hb
    exact exec_bg_status cmds env h hf hb
  · intro cmds env h c hf hb hw hc
    rw [exec_fg_status cmds env h hf hb, hw]
    exact Nat.mod_eq_of_lt (by omega)
  · intro cmds env h s hf hb hw
    rw [exec_fg_status cmds env h hf hb, hw]
  · intro cmds env env2 h hf hf2 hw
    by_cases hb : (cmds.getLast h).background = true
    · rw [exec_bg_status cmds env h hf hb, exec_bg_status cmds env2 h hf2 hb]
    · have hb2 : (cmds.getLast h).background = false := by simpa using hb
      rw [exec_fg_status cmds env h hf hb2, exec_fg_status cmds env2 h hf2 hb2, hw]

/-- Witness for C2: a one-command foreground pipeline whose child exits with
code 7 makes `execute_pipeline` return 7. -/
theorem c2_exit_status_witness :
    execute_pipeline [⟨some ["sh"], none, none, false, false⟩]
      ⟨fun _ => true, fun _ => WaitRes.wexited 7⟩ = 7 :=
  c2_exit_status.2.2.1 [⟨some ["sh"], none, none, false, false⟩]
    ⟨fun _ => true, fun _ => WaitRes.wexited 7⟩ (by decide) 7 rfl rfl rfl (by omega)

/-- Counterexample to Claim C3: the scanner does not recognize operator
characters as token boundaries, so `ls|grep test` scans to the two lexemes
`ls|grep` and `test`, not to `ls`, `|`, `grep`, `test` as the claim states. -/
theorem c3_counterexample :
    tokenizeLine "ls|grep test" = ["ls|grep", "test"] ∧
    tokenizeLine "ls|grep test" ≠ ["ls", "|", "grep", "test"] := by
  decide

/-- Claim C3 as amended: outside quotes the scanner splits only at
whitespace; on quote-free input the lexemes are exactly the maximal
whitespace-separated runs (truncated to `MAX_TOKENS - 1`), so an operator is
a lexeme of its own only when whitespace-separated, and `ls|grep test` scans
to `ls|grep`, `test`. Operator strings (including the distinction between
`>` and `>>`) are recognized by the pipeline builder as whole lexemes, not
by the scanner. -/
theorem c3_amended :
    (∀ line : String, noQuote line.toList →
      tokenizeLine line =
        ((wordsOf line.toList).take (MAX_TOKENS - 1)).map (fun w => String.mk w)) ∧
    tokenizeLine "ls|grep test" = ["ls|grep", "test"] := by
  constructor
  · intro line hq
    unfold tokenizeLine tokenize
    rw [tokenizeAux_eq_take, tokenizeAll_no_quote line.toList hq]
  · decide

/-- Witness for the amended C3 at the quote-free line `ls|grep test`. -/
theorem c3_amended_witness :
    tokenizeLine "ls|grep test" =
      ((wordsOf ("ls|grep test").toList).take (MAX_TOKENS - 1)).map (fun w => String.mk w) :=
  c3_amended.1 "ls|grep test" (by decide)

/-- Claim C4 (refuting evaluation): parsing `echo "hello world"` yields one
command whose second argv entry is the thirteen-character string
`"hello world"` with the double quotes still present: the scanner consumes
quote characters only in the sense of moving past them, it never removes
them from the word's content. The repository's own unit test
(test_parser.c, test_parse_quoted_strings) asserts the quote-free value and
therefore fails on this code. -/
theorem c4_quotes_kept :
    parse_command "echo \"hello world\"" =
      (0, ⟨some [⟨some ["echo", "\"hello world\""], none, none, false, false⟩], 1⟩) ∧
    ("\"hello world\"" : String) ≠ "hello world" := by
  decide

/-- Counterexample to Claim C5: `ls |` parses successfully (result 0) into
two commands whose second command has a null argv (the walk ran out of
lexemes), and `| ls` parses successfully into two commands whose first
command has an empty argv; in neither case does every command of a
successfully parsed pipeline have a non-empty argv. -/
theorem c5_counterexample :
    (parse_command "ls |").1 = 0 ∧
    (parse_command "ls |").2.commands =
      some [⟨some ["ls"], none, none, false, false⟩, ⟨none, none, none, false, false⟩] ∧
    (parse_command "| ls").1 = 0 ∧
    (parse_command "| ls").2.commands =
      some [⟨some [], none, none, false, false⟩, ⟨some ["ls"], none, none, false, false⟩] := by
  decide

/-- Claim C5 as amended: on every successfully parsed line, every command of
the resulting pipeline either carries an argv vector assigned by the walk
(NULL-terminated by construction, but possibly empty, as for an empty
segment between pipes) or is still the zero-initialized command with null
argv (when the lexemes ended before its segment, as for a trailing pipe);
argv being non-empty is not guaranteed for every command. -/
theorem c5_amended :
    ∀ line : String, (parse_command line).1 = 0 →
      (parse_command line).2.commands = none ∨
      ∃ cmds, (parse_command line).2.commands = some cmds ∧
        ∀ c ∈ cmds, (∃ l, c.argv = some l) ∨ c = command_t.init := by
  intro line hz
  unfold parse_command at hz ⊢
  by_cases hblank : isBlankOrComment line = true
  · rw [if_pos hblank]
    left
    rfl
  · rw [if_neg hblank] at hz ⊢
    rcases hts : tokenizeLine line with _ | ⟨t0, ts0⟩
    · rw [hts] at hz
      simp [parse_tokens] at hz
    · rw [hts] at hz
      have hne : (t0 :: ts0 : List String) ≠ [] := by simp
      unfold parse_tokens at hz ⊢
      rw [if_neg hne] at hz ⊢
      by_cases hcap : countPipes (t0 :: ts0) + 1 > MAX_PIPES
      · rw [if_pos hcap] at hz
        simp at hz
      · rw [if_neg hcap] at hz ⊢
        rcases hpl : parseLoop (countPipes (t0 :: ts0) + 1) 0 (t0 :: ts0) with _ | cmds
        · rw [hpl] at hz
          simp at hz
        · rw [hpl] at hz
          right
          refine ⟨cmds, rfl, ?_⟩
          unfold parseLoop at hpl
          exact fun c hc => parseLoopFuel_mem _ _ _ _ cmds hpl c hc

/-- Witness for the amended C5 at the line `ls |`. -/
theorem c5_amended_witness :
    (parse_command "ls |").1 = 0 ∧
    ((parse_command "ls |").2.commands = none ∨
      ∃ cmds, (parse_command "ls |").2.commands = some cmds ∧
        ∀ c ∈ cmds, (∃ l, c.argv = some l) ∨ c = command_t.init) :=
  ⟨by decide, c5_amended "ls |" (by decide)⟩

set_option maxRecDepth 100000 in
/-- Claim C6: on success the pipeline has `countPipes + 1` commands (both in
the stored count and in the array length); an input with more than
`MAX_PIPES = 64` commands is rejected; when the other failure conditions are
absent (no redirection lexemes, and at most `MAX_TOKENS - 1` lexemes as the
scanner guarantees), the builder rejects exactly the inputs whose command
count exceeds 64; concretely, 64 commands parse and 65 are rejected. -/
theorem c6_command_count :
    (∀ ts p, (parse_tokens ts p).1 = 0 →
      (parse_tokens ts p).2.num_commands = countPipes ts + 1 ∧
      ∃ cmds, (parse_tokens ts p).2.commands = some cmds ∧
        cmds.length = countPipes ts + 1) ∧
    (∀ ts p, countPipes ts + 1 > MAX_PIPES → (parse_tokens ts p).1 = -1) ∧
    (∀ ts p, ts ≠ [] → (∀ x ∈ ts, x ∉ redirOps) → ts.length ≤ MAX_TOKENS - 1 →
      ((parse_tokens ts p).1 = 0 ↔ countPipes ts + 1 ≤ MAX_PIPES)) ∧
    (parse_tokens ((List.replicate 63 ["a", "|"]).flatten ++ ["a"]) ⟨none, 0⟩).1 = 0 ∧
    (parse_tokens ((List.replicate 64 ["a", "|"]).flatten ++ ["a"]) ⟨none, 0⟩).1 = -1 := by
  have part1 : ∀ ts p, (parse_tokens ts p).1 = 0 →
      (parse_tokens ts p).2.num_commands = countPipes ts + 1 ∧
      ∃ cmds, (parse_tokens ts p).2.commands = some cmds ∧
        cmds.length = countPipes ts + 1 := by
    intro ts p hz
    rcases ts with _ | ⟨t0, ts0⟩
    · simp [parse_tokens] at hz
    · have hne : (t0 :: ts0 : List String) ≠ [] := by simp
      unfold parse_tokens at hz ⊢
      rw [if_neg hne] at hz ⊢
      by_cases hcap : countPipes (t0 :: ts0) + 1 > MAX_PIPES
      · rw [if_pos hcap] at hz
        simp at hz
      · rw [if_neg hcap] at hz ⊢
        rcases hpl : parseLoop (countPipes (t0 :: ts0) + 1) 0 (t0 :: ts0) with _ | cmds
        · rw [hpl] at hz
          simp at hz
        · rw [hpl] at hz
          unfold parseLoop at hpl
          have hlen := parseLoopFuel_length _ _ _ _ cmds rfl hpl
          exact ⟨rfl, cmds, rfl, by omega⟩
  have part2 : ∀ ts p, countPipes ts + 1 > MAX_PIPES → (parse_tokens ts p).1 = -1 := by
    intro ts p hcap
    rcases ts with _ | ⟨t0, ts0⟩
    · rfl
    · have hne : (t0 :: ts0 : List String) ≠ [] := by simp
      unfold parse_tokens
      rw [if_neg hne, if_pos hcap]
  refine ⟨part1, part2, ?_, by decide, by decide⟩
  intro ts p hne hnr hlen
  constructor
  · intro hz
    by_contra hcap
    have hneg := part2 ts p (by omega)
    rw [hneg] at hz
    exact absurd hz (by decide)
  · intro hle
    rcases ts with _ | ⟨t0, ts0⟩
    · exact absurd rfl hne
    · have hne2 : (t0 :: ts0 : List String) ≠ [] := by simp
      unfold parse_tokens
      rw [if_neg hne2, if_neg (by omega)]
      obtain ⟨cmds, hcmds⟩ := parseLoopFuel_total (countPipes (t0 :: ts0) + 1 - 0)
        (countPipes (t0 :: ts0) + 1) 0 (t0 :: ts0) hnr hlen
      unfold parseLoop
      rw [hcmds]

set_option maxRecDepth 100000 in
/-- Witness for C6: a 65-command input exceeds `MAX_PIPES` and is rejected. -/
theorem c6_command_count_witness :
    countPipes ((List.replicate 64 ["a", "|"]).flatten ++ ["a"]) + 1 > MAX_PIPES ∧
    (parse_tokens ((List.replicate 64 ["a", "|"]).flatten ++ ["a"]) ⟨none, 0⟩).1 = -1 :=
  ⟨by decide, c6_command_count.2.1 _ ⟨none, 0⟩ (by decide)⟩

/-- Claim C7 (refuting evaluation): when `execute_command` fails at index k
the parent waits exactly once for each of the k already-forked children
(`waited = [0, ..., k-1]`) and returns the non-zero status 1, but the error
path contains no `close` call at all: for a 2-command pipeline failing at
k = 1 the parent still holds the read end of pipe 0, and for a 3-command
pipeline failing at k = 1 it still holds the read end of pipe 0 and both
ends of pipe 1, none of which it closes. -/
theorem c7_fork_failure_cleanup :
    (∀ k, (forkFailCleanup k).waited = List.range k ∧ (forkFailCleanup k).ret = 1 ∧
      (forkFailCleanup k).closed = []) ∧
    parentHeld 2 1 = [PipeEnd.rd 0] ∧
    parentHeld 3 1 = [PipeEnd.rd 0, PipeEnd.rd 1, PipeEnd.wr 1] :=
  ⟨fun _ => ⟨rfl, rfl, rfl⟩, by decide, by decide⟩

/-- Claim C8: if the lexemes end in a redirection operator in operator
position (no `&` lexeme, and no redirection operator consumed as another's
target), then `parse_tokens` fails with -1 and the resulting structure is
zeroed (null commands array, zero count) via `free_pipeline`, and
`parse_command` on such a non-blank non-comment line fails the same way,
retaining nothing from the failed parse. -/
theorem c8_redir_no_target :
    (∀ ts t, "&" ∉ ts → redirOk ts → ts.getLast? = some t → t ∈ redirOps →
      parse_tokens ts ⟨none, 0⟩ = (-1, (⟨none, 0⟩ : pipeline_t))) ∧
    (∀ line t, isBlankOrComment line = false → "&" ∉ tokenizeLine line →
      redirOk (tokenizeLine line) → (tokenizeLine line).getLast? = some t →
      t ∈ redirOps → parse_command line = (-1, (⟨none, 0⟩ : pipeline_t))) := by
  have main : ∀ ts t, "&" ∉ ts → redirOk ts → ts.getLast? = some t → t ∈ redirOps →
      parse_tokens ts ⟨none, 0⟩ = (-1, (⟨none, 0⟩ : pipeline_t)) := by
    intro ts t hamp hro hlast ht
    rcases ts with _ | ⟨t0, ts0⟩
    · simp at hlast
    · have hne : (t0 :: ts0 : List String) ≠ [] := by simp
      unfold parse_tokens
      rw [if_neg hne]
      by_cases hcap : countPipes (t0 :: ts0) + 1 > MAX_PIPES
      · rw [if_pos hcap]
      · rw [if_neg hcap]
        have hnone := parseLoopFuel_redir_none (countPipes (t0 :: ts0) + 1 - 0)
          (countPipes (t0 :: ts0) + 1) 0 (t0 :: ts0) t (by omega) (by omega)
          hamp hro hlast ht (by omega)
        unfold parseLoop
        rw [hnone]
        rfl
  refine ⟨main, ?_⟩
  intro line t hb hamp hro hlast ht
  unfold parse_command
  rw [if_neg (by simp [hb])]
  exact main _ t hamp hro hlast ht

/-- Witness for C8 at the line `ls >`. -/
theorem c8_redir_no_target_witness :
    parse_command "ls >" = (-1, (⟨none, 0⟩ : pipeline_t)) :=
  c8_redir_no_target.2 "ls >" ">" (by decide) (by decide) (by decide) (by decide) (by decide)

/-- Claim C9: `free_pipeline` zeroes the structure (null commands, zero
count); releasing a second time is a no-op that changes nothing; and on the
zeroed structure it performs no deallocation (the loop runs zero times and
`free(NULL)` is a no-op). -/
theorem c9_free_pipeline_idempotent :
    (∀ p, free_pipeline p = (⟨none, 0⟩ : pipeline_t)) ∧
    (∀ p, free_pipeline (free_pipeline p) = free_pipeline p) ∧
    freeCalls (⟨none, 0⟩ : pipeline_t) = 0 ∧
    (∀ p, freeCalls (free_pipeline p) = 0) :=
  ⟨fun _ => rfl, fun _ => rfl, rfl, fun _ => rfl⟩

set_option maxRecDepth 100000 in
set_option maxHeartbeats 1600000 in
/-- Claim C10: the scanner produces at most `MAX_TOKENS - 1 = 255` lexemes;
the bounded scan is exactly the truncation of the unbounded scan, so input
past the 255th lexeme is silently dropped rather than reported as an error;
and a line of 300 words still parses successfully into a single command with
exactly its first 255 words as argv. -/
theorem c10_token_limit :
    (∀ line : String, (tokenizeLine line).length ≤ MAX_TOKENS - 1) ∧
    (∀ line : String, tokenizeLine line =
      ((tokenizeAll line.toList).take (MAX_TOKENS - 1)).map (fun w => String.mk w)) ∧
    (tokenizeLine (String.mk ((List.replicate 300 ['a', ' ']).flatten))).length =
      MAX_TOKENS - 1 ∧
    parse_command (String.mk ((List.replicate 300 ['a', ' ']).flatten)) =
      (0, ⟨some [⟨some (List.replicate 255 "a"), none, none, false, false⟩], 1⟩) := by
  refine ⟨?_, ?_, by decide, by decide⟩
  · intro line
    unfold tokenizeLine tokenize
    rw [tokenizeAux_eq_take, List.length_map, List.length_take]
    exact Nat.min_le_left _ _
  · intro line
    unfold tokenizeLine tokenize
    rw [tokenizeAux_eq_take]

end ShellSpec
